import Mathlib

/-!
Verification of the byte-buffer engine of `unhexed` (package `buffer`).

The Go source is embedded shallowly:
* bytes are `Nat`, byte slices are `List Nat`;
* Go `int64` / `int` arguments are `Int` (clamping of negative values
  matters, so offsets and counts stay signed);
* the two LIFO stacks keep the top of the stack at the *head* of the
  Lean list (the Go code appends at the end of a slice; this is the
  same stack with the orientation reversed);
* file I/O is modelled by an explicit file-system map `FS` and, for
  `Save`, a `writeOk` flag standing for the outcome of `os.WriteFile`;
* the SHA-256 hex digest is an abstract function `hash : List Nat → String`
  passed to the operations that use it (the code only ever compares
  digests for equality).

Places where the Go code would panic (negative slice length or index,
or a `make` length beyond any allocatable slice) are modelled by
separate, explicit `…Panics` predicates derived from the slice and
`make` expressions in each function body; the value-level functions use
`Int.toNat`/`List.take`/`List.drop`, which agree with the Go code on all
non-panicking inputs.

Where the Go code performs int64 arithmetic that can overflow
(`offset+int64(count)` in `Delete`/`GetBytes`, `offset+int64(i)` in
`ReplaceBytes`), the two's-complement wraparound is modelled explicitly
by `wrap64`; lengths of actually allocated Go slices are always below
`2^63`, so length arithmetic itself never wraps.
-/

namespace Unhexed

/-- Kind tag of a recorded edit (`OpType` in the source). -/
inductive OpType where
  | OpInsert : OpType
  | OpDelete : OpType
  | OpReplace : OpType
deriving DecidableEq, Repr

/-- A recorded reversible edit (`Operation` in the source). -/
structure Operation where
  type : OpType
  offset : Int
  oldData : List Nat
  newData : List Nat
deriving DecidableEq, Repr

/-- The `Buffer` struct of the source. Stacks keep their top at the head. -/
structure Buffer where
  filename : String
  data : List Nat
  originalHash : String
  modified : Bool
  undoStack : List Operation
  redoStack : List Operation
  isNew : Bool
deriving DecidableEq, Repr

/-- Go `New()`: empty unbound buffer (`originalHash` is Go's zero value `""`). -/
def New : Buffer :=
  { filename := "", data := [], originalHash := "", modified := false,
    undoStack := [], redoStack := [], isNew := true }

def Buffer.Size (b : Buffer) : Int := b.data.length

/-- The two's-complement int64 value of `x`: reduction modulo `2^64`
into `[-2^63, 2^63)`.  Every Go int64 addition that can overflow is
modelled by applying `wrap64` to the unbounded sum (the numerals are
`2^63` and `2^64`). -/
def wrap64 (x : Int) : Int :=
  (x + 9223372036854775808) % 18446744073709551616 - 9223372036854775808

def Buffer.Data (b : Buffer) : List Nat := b.data

def Buffer.Filename (b : Buffer) : String := b.filename

/-- Go `SetFilename(name)`: rebinds the path and clears `isNew`; nothing else. -/
def Buffer.SetFilename (b : Buffer) (name : String) : Buffer :=
  { b with filename := name, isNew := false }

def Buffer.IsNew (b : Buffer) : Bool := b.isNew

def Buffer.IsModified (b : Buffer) : Bool := b.modified

/-- Go `GetByte(offset)`: `(byte, bool)` in Go, an `Option` here. -/
def Buffer.GetByte (b : Buffer) (offset : Int) : Option Nat :=
  if offset < 0 ∨ b.Size ≤ offset then none
  else some (b.data.getD offset.toNat 0)

/-- Go `GetBytes(offset, count)`: Go computes `end := offset+int64(count)`,
clamps it to the length, and copies `data[offset:end]` into a slice of
length `end-offset`.  (For negative `count`, and when the int64 addition
overflows so the clamp is skipped, the Go code panics in `make`; see
`GetBytesPanics`.  Wherever `GetBytes` completes, no wrap occurred and
this function agrees with the source.) -/
def Buffer.GetBytes (b : Buffer) (offset : Int) (count : Int) : List Nat :=
  if offset < 0 ∨ b.Size ≤ offset then []
  else
    let e := if b.Size < offset + count then b.Size else offset + count
    (b.data.take e.toNat).drop offset.toNat

/-- The offset clamping at the top of `Insert`. -/
def insClamp (b : Buffer) (offset : Int) : Int :=
  if offset < 0 then 0 else if b.Size < offset then b.Size else offset

/-- Go `Insert(offset, data)`: clamp, record the Operation (`NewData` = a copy
of `data`, `OldData` = nil), push it, drop the redo stack, splice. -/
def Buffer.Insert (b : Buffer) (offset : Int) (data : List Nat) : Buffer :=
  let o := insClamp b offset
  { b with
    undoStack := ⟨OpType.OpInsert, o, [], data⟩ :: b.undoStack
    redoStack := []
    data := (b.data.take o.toNat) ++ data ++ (b.data.drop o.toNat)
    modified := true }

/-- Go `Delete(offset, count)`: early return on out-of-range offset or
non-positive count (note: this leaves the redo stack untouched); clamp
`count` so `offset+count ≤ size`; record the removed span; splice it out.
(When `offset+int64(count)` overflows int64 the Go clamp test sees the
wrapped negative sum, `count` stays huge and `make([]byte, count)`
panics — that region is captured by `DeletePanics`; wherever `Delete`
completes, the wrapped and unbounded comparisons coincide and this
function agrees with the source.) -/
def Buffer.Delete (b : Buffer) (offset : Int) (count : Int) : Buffer :=
  if offset < 0 ∨ b.Size ≤ offset ∨ count ≤ 0 then b
  else
    let c : Int := if b.Size < offset + count then b.Size - offset else count
    let o := offset.toNat
    { b with
      undoStack := ⟨OpType.OpDelete, offset, (b.data.drop o).take c.toNat, []⟩ :: b.undoStack
      redoStack := []
      data := (b.data.take o) ++ (b.data.drop (o + c.toNat))
      modified := true }

/-- Go `Replace(offset, newByte)`: early return on out-of-range offset (again
leaving the redo stack untouched); record old and new byte; overwrite. -/
def Buffer.Replace (b : Buffer) (offset : Int) (newByte : Nat) : Buffer :=
  if offset < 0 ∨ b.Size ≤ offset then b
  else
    let o := offset.toNat
    { b with
      undoStack := ⟨OpType.OpReplace, offset, [b.data.getD o 0], [newByte]⟩ :: b.undoStack
      redoStack := []
      data := b.data.set o newByte
      modified := true }

/-- Go `ReplaceBytes(offset, data)`: per byte, position
`pos = offset + int64(i)` computed in wrapping int64 arithmetic; if
`pos ≥ len(b.data)` (the *current* length) it calls
`Insert(len(b.data), []byte{d})`, otherwise `Replace(pos, d)` (a no-op
when `pos` is negative, e.g. after the sum wraps past `MaxInt64`).  The
recursion keeps the running position as `wrap64 offset` and passes
`wrap64 offset + 1` on, so step `i` sees exactly the int64 value of
`offset + i`; for an in-range (int64) `offset`, `wrap64 offset = offset`. -/
def Buffer.ReplaceBytes (b : Buffer) (offset : Int) (data : List Nat) : Buffer :=
  match data with
  | [] => b
  | d :: rest =>
      (if b.Size ≤ wrap64 offset then b.Insert b.Size [d]
       else b.Replace (wrap64 offset) d).ReplaceBytes (wrap64 offset + 1) rest

/-- The reverse application `Undo` performs on a popped `Operation`:
Insert removes `newData` at `offset`; Delete reinserts `oldData` at
`offset`; Replace restores the `oldData` byte at `offset`. -/
def revertOp (op : Operation) (d : List Nat) : List Nat :=
  match op.type with
  | OpType.OpInsert => (d.take op.offset.toNat) ++ (d.drop (op.offset.toNat + op.newData.length))
  | OpType.OpDelete => (d.take op.offset.toNat) ++ op.oldData ++ (d.drop op.offset.toNat)
  | OpType.OpReplace => d.set op.offset.toNat (op.oldData.headD 0)

/-- The forward application `Redo` performs on a popped `Operation`. -/
def applyOp (op : Operation) (d : List Nat) : List Nat :=
  match op.type with
  | OpType.OpInsert => (d.take op.offset.toNat) ++ op.newData ++ (d.drop op.offset.toNat)
  | OpType.OpDelete => (d.take op.offset.toNat) ++ (d.drop (op.offset.toNat + op.oldData.length))
  | OpType.OpReplace => d.set op.offset.toNat (op.newData.headD 0)

/-- Go `Undo()`: pop, reverse-apply, push the popped Operation onto the redo
stack, set `modified = (undo stack now non-empty)`, return true. -/
def Buffer.Undo (b : Buffer) : Buffer × Bool :=
  match b.undoStack with
  | [] => (b, false)
  | op :: rest =>
      ({ b with
          data := revertOp op b.data
          undoStack := rest
          redoStack := op :: b.redoStack
          modified := decide (0 < rest.length) }, true)

/-- Go `Redo()`: pop, re-apply, push back onto the undo stack, set
`modified = true`, return true. -/
def Buffer.Redo (b : Buffer) : Buffer × Bool :=
  match b.redoStack with
  | [] => (b, false)
  | op :: rest =>
      ({ b with
          data := applyOp op b.data
          redoStack := rest
          undoStack := op :: b.undoStack
          modified := true }, true)

def Buffer.CanUndo (b : Buffer) : Bool := decide (0 < b.undoStack.length)

def Buffer.CanRedo (b : Buffer) : Bool := decide (0 < b.redoStack.length)

/-- The file system visible to the buffer: path ↦ byte content of the file
there, `none` when the file does not exist or cannot be read. -/
def FS : Type := String → Option (List Nat)

/-- The two failure modes of `Save`. -/
inductive SaveErr where
  | noFilename : SaveErr
  | ioError : SaveErr
deriving DecidableEq, Repr

/-- Go `Open(filename)`: read the file fully, capture the digest. -/
def OpenFile (hash : List Nat → String) (filename : String) (fs : FS) : Option Buffer :=
  match fs filename with
  | none => none
  | some d =>
      some { filename := filename, data := d, originalHash := hash d,
             modified := false, undoStack := [], redoStack := [], isNew := false }

/-- Go `Save()`: unbound-path error when `filename` is empty; otherwise write
the full content (`writeOk` stands for the `os.WriteFile` outcome — on
failure the method returns before touching any field), then recompute the
digest, clear `modified` and both stacks, clear `isNew`. -/
def Buffer.Save (hash : List Nat → String) (b : Buffer) (fs : FS) (writeOk : Bool) :
    Option SaveErr × Buffer × FS :=
  if b.filename = "" then (some SaveErr.noFilename, b, fs)
  else if writeOk = false then (some SaveErr.ioError, b, fs)
  else
    (none,
     { b with originalHash := hash b.data, modified := false,
              undoStack := [], redoStack := [], isNew := false },
     fun n => if n = b.filename then some b.data else fs n)

/-- Go `HasChangedOnDisk()`: `(false, nil)` for a new or unbound buffer;
otherwise re-read the bound file and compare digests; I/O error when the
re-read fails. -/
def Buffer.HasChangedOnDisk (hash : List Nat → String) (b : Buffer) (fs : FS) :
    Except Unit Bool :=
  if b.isNew = true ∨ b.filename = "" then Except.ok false
  else
    match fs b.filename with
    | none => Except.error ()
    | some d => Except.ok (decide (¬ (hash d = b.originalHash)))

/-- The inner `j` loop of `Find`/`CountMatches`: the pattern matches
byte-for-byte at index `i` (self-bounding: true forces
`i + pat.length ≤ data.length`). -/
def matchAt (data pat : List Nat) (i : Nat) : Bool :=
  decide ((data.drop i).take pat.length = pat)

/-- The forward loop of `Find`: try `i`, `i+1`, … for `n` iterations,
where `n` is the number of indices from `startOffset` up to
`size - len(pattern)`. -/
def scanFwd (data pat : List Nat) : Int → Nat → Int
  | _, 0 => -1
  | i, n+1 => if matchAt data pat i.toNat then i else scanFwd data pat (i+1) n

/-- The backward loop of `Find`: try `s`, `s-1`, …, `0`. -/
def scanBack (data pat : List Nat) : Nat → Int
  | 0 => if matchAt data pat 0 then (0 : Int) else -1
  | s+1 => if matchAt data pat (s+1) then ((s : Int)+1) else scanBack data pat s

/-- Go `Find(pattern, startOffset, forward)`.  (For `forward` with negative
`startOffset` the Go loop indexes the slice at a negative position and
panics; see `FindPanics`.  Backward, Go computes `startOffset - 1` in
int64, which wraps only at `startOffset = MinInt64`; this function
models the non-wrapping regime — the claims constrain
`startOffset ≥ 0`, where it agrees with the source everywhere.) -/
def Buffer.Find (b : Buffer) (pattern : List Nat) (startOffset : Int) (forward : Bool) : Int :=
  if pattern.length = 0 ∨ b.data.length = 0 then -1
  else if forward then
    scanFwd b.data pattern startOffset ((b.Size - pattern.length + 1 - startOffset).toNat)
  else
    let start := min (startOffset - 1) (b.Size - pattern.length)
    if start < 0 then -1 else scanBack b.data pattern start.toNat

/-- Go `CountMatches(pattern)`: every start position in
`[0, size - len(pattern)]`, overlapping matches included. -/
def Buffer.CountMatches (b : Buffer) (pattern : List Nat) : Nat :=
  if pattern.length = 0 ∨ b.data.length = 0 then 0
  else (List.range (b.Size - pattern.length + 1).toNat).countP
        (fun i => matchAt b.data pattern i)

/-- Panic condition of the Go `GetBytes`.  Past the guard
(`0 ≤ offset < size`), Go computes `end := offset+int64(count)` with
wraparound and clamps only when the wrapped value exceeds the length;
since `end - offset ≡ count (mod 2^64)`, whenever the clamp is skipped
`make([]byte, end-offset)` receives exactly the int64 value `count`.
The clamp is skipped either in the benign in-bounds case or when the
addition overflowed (the wrapped `end` is negative, hence not above the
length); `make` then panics in exactly two situations: `count < 0`
(negative length), or `offset + count ≥ 2^63` (overflow: the unreduced
`count ≥ 2^63 - offset` is beyond every allocatable slice).  When the
clamp applies, the length is `size - offset ∈ (0, size]` and every
slice expression is in range. -/
def GetBytesPanics (b : Buffer) (offset count : Int) : Bool :=
  if offset < 0 ∨ b.Size ≤ offset then false
  else decide (count < 0 ∨ 9223372036854775808 ≤ offset + count)

/-- Panic condition of the Go `Find`: the forward loop is entered with
`i = startOffset < 0` and `b.data[i+j]` indexes out of range on the very
first comparison.  The backward loop only visits `i ∈ [0, start]` and the
in-range loop bounds keep every access legal. -/
def FindPanics (b : Buffer) (pattern : List Nat) (startOffset : Int) (forward : Bool) : Bool :=
  if pattern.length = 0 ∨ b.data.length = 0 then false
  else if forward then
    decide (startOffset < 0 ∧ startOffset ≤ b.Size - pattern.length)
  else false

/-- Panic condition of the Go `Insert`: the slice expressions
`b.data[:offset]` / `b.data[offset:]` need the clamped offset in
`[0, size]`. -/
def InsertPanics (b : Buffer) (offset : Int) (data : List Nat) : Bool :=
  decide (insClamp b offset < 0 ∨ b.Size < insClamp b offset)

/-- Panic condition of the Go `Delete`.  Past the guard
(`0 ≤ offset < size`, `count > 0`), the clamp tests
`offset+int64(count) > size` on the *wrapped* sum: when the true sum
overflows int64 (`offset + count ≥ 2^63`) the wrapped sum is negative,
the clamp is skipped, and `make([]byte, count)` receives the unreduced
`count ≥ 2^63 - offset`, beyond every allocatable slice — panic.
Otherwise `count` ends up in `[1, size - offset]` and every `make` and
slice expression is in range. -/
def DeletePanics (b : Buffer) (offset count : Int) : Bool :=
  if offset < 0 ∨ b.Size ≤ offset ∨ count ≤ 0 then false
  else decide (9223372036854775808 ≤ offset + count)

/-- Panic condition of the Go `Replace`: past the guard, the index
`b.data[offset]` must satisfy `0 ≤ offset < size`. -/
def ReplacePanics (b : Buffer) (offset : Int) : Bool :=
  if offset < 0 ∨ b.Size ≤ offset then false
  else decide (¬ (0 ≤ offset ∧ offset < b.Size))

/-- Panic condition of the Go `GetByte`: past the guard, the index must be
in range. -/
def GetBytePanics (b : Buffer) (offset : Int) : Bool :=
  if offset < 0 ∨ b.Size ≤ offset then false
  else decide (¬ (0 ≤ offset ∧ offset < b.Size))

/-- Panic condition of the Go `CountMatches`: some access `b.data[i+j]`
of the two nested loops out of range. -/
def CountMatchesPanics (b : Buffer) (pattern : List Nat) : Bool :=
  if pattern.length = 0 ∨ b.data.length = 0 then false
  else
    (List.range (b.Size - pattern.length + 1).toNat).any
      (fun i => (List.range pattern.length).any
        (fun j => decide (b.data.length ≤ i + j)))

/-- Panic condition of the Go `ReplaceBytes`: one of the `Insert`/`Replace`
calls it makes panics (positions in wrapping int64 arithmetic, mirroring
`Buffer.ReplaceBytes`). -/
def ReplaceBytesPanics (b : Buffer) (offset : Int) (data : List Nat) : Bool :=
  match data with
  | [] => false
  | d :: rest =>
      if b.Size ≤ wrap64 offset then
        InsertPanics b b.Size [d] ||
          ReplaceBytesPanics (b.Insert b.Size [d]) (wrap64 offset + 1) rest
      else
        ReplacePanics b (wrap64 offset) ||
          ReplaceBytesPanics (b.Replace (wrap64 offset) d) (wrap64 offset + 1) rest

/-- The run of Operations `ReplaceBytes` pushes when it extends past the
end of the buffer: one single-byte Insert per byte, at offsets
`startLen`, `startLen+1`, …, listed in stack order (most recent first,
matching the head-is-top orientation of `Buffer.undoStack`). -/
def appendRunOps (startLen : Nat) : List Nat → List Operation
  | [] => []
  | d :: rest => appendRunOps (startLen + 1) rest ++ [⟨OpType.OpInsert, (startLen : Int), [], [d]⟩]

/-- Well-formedness of an Operation sitting on the undo stack, relative
to the content `d` it would be reverted from: the offsets and lengths are
in range (so `revertOp` agrees with the Go slice code) and the content
still holds the data the forward application wrote. -/
def WfUndo (op : Operation) (d : List Nat) : Prop :=
  0 ≤ op.offset ∧
  match op.type with
  | OpType.OpInsert =>
      op.offset.toNat + op.newData.length ≤ d.length ∧
      (d.drop op.offset.toNat).take op.newData.length = op.newData
  | OpType.OpDelete => op.offset.toNat ≤ d.length
  | OpType.OpReplace =>
      op.offset.toNat < d.length ∧ op.oldData.length = 1 ∧ op.newData.length = 1 ∧
      d.getD op.offset.toNat 0 = op.newData.headD 0

/-- Well-formedness of an Operation sitting on the redo stack, relative
to the content `d` it would be re-applied to. -/
def WfRedo (op : Operation) (d : List Nat) : Prop :=
  0 ≤ op.offset ∧
  match op.type with
  | OpType.OpInsert => op.offset.toNat ≤ d.length
  | OpType.OpDelete =>
      op.offset.toNat + op.oldData.length ≤ d.length ∧
      (d.drop op.offset.toNat).take op.oldData.length = op.oldData
  | OpType.OpReplace =>
      op.offset.toNat < d.length ∧ op.oldData.length = 1 ∧ op.newData.length = 1 ∧
      d.getD op.offset.toNat 0 = op.oldData.headD 0

/-- The undo stack `u` over current content `d` matches the ghost history
`hs` (both head-first): reverting the top Operation yields exactly the
content recorded for it, and recursively so for the rest. -/
def StackOk : List Operation → List (List Nat) → List Nat → Prop
  | [], [], _ => True
  | op :: u, h :: hs, d => revertOp op d = h ∧ WfUndo op d ∧ StackOk u hs h
  | _, _, _ => False

/-- The redo stack `r` replays forward from current content `d`. -/
def RedoOk : List Operation → List Nat → Prop
  | [], _ => True
  | op :: r, d => WfRedo op d ∧ RedoOk r (applyOp op d)

/-- The operation-log invariant of a buffer, with ghost history `hs`. -/
def Inv (b : Buffer) (hs : List (List Nat)) : Prop :=
  StackOk b.undoStack hs b.data ∧ RedoOk b.redoStack b.data

/-- Reachability of a buffer state through the public API, carrying the
ghost history `hs`: one entry per undo-stack Operation, newest first,
each recording the content that held immediately before that Operation
was (last) applied.  `init` covers `New`, `Open` and any state with empty
stacks; the mutation, undo, redo, save and rename steps mirror the
corresponding methods (including their no-op guards).  `ReplaceBytes`
needs no constructor of its own: it is literally a sequence of
`Insert`/`Replace` calls (see `Reach.replaceBytes`). -/
inductive Reach : Buffer → List (List Nat) → Prop
  | init (fn : String) (d : List Nat) (oh : String) (m n : Bool) :
      Reach ⟨fn, d, oh, m, [], [], n⟩ []
  | insert {b hs} (offset : Int) (data : List Nat) :
      Reach b hs → Reach (b.Insert offset data) (b.data :: hs)
  | delete {b hs} (offset count : Int) :
      Reach b hs →
      Reach (b.Delete offset count)
        (if offset < 0 ∨ b.Size ≤ offset ∨ count ≤ 0 then hs else b.data :: hs)
  | replace {b hs} (offset : Int) (nb : Nat) :
      Reach b hs →
      Reach (b.Replace offset nb)
        (if offset < 0 ∨ b.Size ≤ offset then hs else b.data :: hs)
  | undo {b hs} : Reach b hs → Reach (b.Undo).1 hs.tail
  | redo {b hs} :
      Reach b hs → Reach (b.Redo).1 (if b.redoStack = [] then hs else b.data :: hs)
  | save {b hs} (hash : List Nat → String) (fs : FS) (w : Bool) :
      Reach b hs → (b.Save hash fs w).1 = none → Reach (b.Save hash fs w).2.1 []
  | setFilename {b hs} (name : String) :
      Reach b hs → Reach (b.SetFilename name) hs

/-! ## List helpers -/

theorem set_self (l : List Nat) (n : Nat) (h : n < l.length) : l.set n l[n] = l := by
  induction l generalizing n with
  | nil => simp at h
  | cons a t ih =>
    cases n with
    | zero => simp
    | succ m =>
      simp only [List.set_cons_succ, List.getElem_cons_succ]
      rw [ih]

theorem set_getD_self (l : List Nat) (n : Nat) (h : n < l.length) :
    l.set n (l.getD n 0) = l := by
  rw [List.getD_eq_getElem?_getD, List.getElem?_eq_getElem h, Option.getD_some]
  exact set_self l n h

theorem getD_set_self (l : List Nat) (n a : Nat) (h : n < l.length) :
    (l.set n a).getD n 0 = a := by
  rw [List.getD_eq_getElem?_getD, List.getElem?_set_self']
  simp [List.getElem?_eq_getElem h]

theorem length_take_of_le {l : List Nat} {n : Nat} (h : n ≤ l.length) :
    (l.take n).length = n := by
  simp only [List.length_take]
  omega

theorem take_splice (d mid : List Nat) (o : Nat) (ho : o ≤ d.length) :
    ((d.take o) ++ mid ++ (d.drop o)).take o = d.take o := by
  rw [List.append_assoc]
  exact List.take_left' (length_take_of_le ho)

theorem drop_splice_mid (d mid : List Nat) (o : Nat) (ho : o ≤ d.length) :
    ((d.take o) ++ mid ++ (d.drop o)).drop o = mid ++ d.drop o := by
  rw [List.append_assoc]
  exact List.drop_left' (length_take_of_le ho)

theorem drop_splice_end (d mid : List Nat) (o : Nat) (ho : o ≤ d.length) :
    ((d.take o) ++ mid ++ (d.drop o)).drop (o + mid.length) = d.drop o :=
  List.drop_left' (by rw [List.length_append, length_take_of_le ho])

theorem splice_self (d : List Nat) (o k : Nat) :
    d.take o ++ ((d.drop o).take k) ++ d.drop (o + k) = d := by
  have h2 : (d.drop o).drop k = d.drop (o + k) := List.drop_drop k o d
  rw [List.append_assoc, ← h2, List.take_append_drop, List.take_append_drop]

theorem wrap64_range (x : Int) :
    -9223372036854775808 ≤ wrap64 x ∧ wrap64 x < 9223372036854775808 := by
  unfold wrap64
  omega

theorem wrap64_eq_self {x : Int} (h1 : -9223372036854775808 ≤ x)
    (h2 : x < 9223372036854775808) : wrap64 x = x := by
  unfold wrap64
  omega

/-! ## C9: Insert with empty data still records an Operation -/

/-- C9: `Insert(offset, [])` leaves the content unchanged but still pushes
an Insert Operation with empty `newData`, clears the redo stack and sets
`modified`; the subsequent `Undo()` returns true and changes no content
(so `IsModified()` is true with content identical to the last-saved
state). -/
theorem C9_insert_empty_still_records (b : Buffer) (offset : Int) :
    (b.Insert offset []).data = b.data ∧
    (b.Insert offset []).undoStack =
      ⟨OpType.OpInsert, insClamp b offset, [], []⟩ :: b.undoStack ∧
    (b.Insert offset []).redoStack = [] ∧
    (b.Insert offset []).IsModified = true ∧
    ((b.Insert offset []).Undo).2 = true ∧
    ((b.Insert offset []).Undo).1.data = b.data := by
  have hdata : (b.Insert offset []).data = b.data := by
    simp [Buffer.Insert]
  refine ⟨hdata, rfl, rfl, rfl, rfl, ?_⟩
  show revertOp ⟨OpType.OpInsert, insClamp b offset, [], []⟩ (b.Insert offset []).data = b.data
  rw [hdata]
  simp [revertOp]

/-! ## C3: which mutations clear the redo stack -/

/-- C3 counterexample: from a state with a non-empty redo stack, the
out-of-range call `Delete(0, 0)` (count ≤ 0) returns at the guard before
touching the redo stack, so `CanRedo()` stays true — the claim says every
`Insert`/`Delete`/`Replace`/`ReplaceBytes` call with any arguments leaves
the redo stack empty. -/
theorem C3_counterexample :
    (((New.Insert 0 [65]).Undo).1.CanRedo = true) ∧
    ((((New.Insert 0 [65]).Undo).1.Delete 0 0).CanRedo = true) := by
  exact ⟨rfl, rfl⟩

/-- C3 amended: `Insert` clears the redo stack for all arguments; `Delete`
and `Replace` clear it exactly when they pass their bounds guard (and
record an Operation); `ReplaceBytes` clears it exactly when at least one
of its per-byte positions (computed in int64 arithmetic) is ≥ 0, i.e.
unless `data` is empty or `wrap64 offset + len(data) ≤ 0` — for every
int64 argument `wrap64 offset = offset`, so on Go's actual domain this
is the condition `offset + len(data) ≤ 0`. -/
theorem C3_amended_redo_clearing (b : Buffer) (offset count : Int)
    (data : List Nat) (nb : Nat) :
    (b.Insert offset data).redoStack = [] ∧
    (b.Delete offset count).redoStack =
      (if offset < 0 ∨ b.Size ≤ offset ∨ count ≤ 0 then b.redoStack else []) ∧
    (b.Replace offset nb).redoStack =
      (if offset < 0 ∨ b.Size ≤ offset then b.redoStack else []) ∧
    (b.ReplaceBytes offset data).redoStack =
      (if data = [] ∨ wrap64 offset + data.length ≤ 0 then b.redoStack else []) := by
  refine ⟨rfl, ?_, ?_, ?_⟩
  · unfold Buffer.Delete
    split <;> rfl
  · unfold Buffer.Replace
    split <;> rfl
  · induction data generalizing b offset with
    | nil => simp [Buffer.ReplaceBytes]
    | cons d rest ih =>
      have hsz : (0 : Int) ≤ b.Size := Int.natCast_nonneg _
      obtain ⟨hw1, hw2⟩ := wrap64_range offset
      rw [show b.ReplaceBytes offset (d :: rest) =
        (if b.Size ≤ wrap64 offset then b.Insert b.Size [d]
         else b.Replace (wrap64 offset) d).ReplaceBytes (wrap64 offset + 1) rest from rfl]
      by_cases hb : b.Size ≤ wrap64 offset
      · rw [if_pos hb, ih]
        have h1 : (b.Insert b.Size [d]).redoStack = [] := rfl
        have h2 : ¬ ((d :: rest) = [] ∨ wrap64 offset + ((d :: rest).length : Int) ≤ 0) :=
          not_or.mpr ⟨by simp, by simp only [List.length_cons]; push_cast; omega⟩
        rw [if_neg h2, h1, ite_self]
      · rw [if_neg hb]
        push_neg at hb
        by_cases hoff : wrap64 offset < 0
        · have hrepl : b.Replace (wrap64 offset) d = b := by
            unfold Buffer.Replace
            rw [if_pos (Or.inl hoff)]
          rw [hrepl, ih]
          have hwp1 : wrap64 (wrap64 offset + 1) = wrap64 offset + 1 :=
            wrap64_eq_self (by omega) (by omega)
          rw [hwp1]
          by_cases hr : rest = []
          · subst hr
            rw [if_pos (Or.inl rfl),
                if_pos (Or.inr (show wrap64 offset + (([d] : List Nat).length : Int) ≤ 0 by
                  simp only [List.length_cons, List.length_nil]
                  push_cast
                  omega))]
          · by_cases hc : wrap64 offset + 1 + (rest.length : Int) ≤ 0
            · rw [if_pos (Or.inr hc),
                  if_pos (Or.inr (show wrap64 offset + ((d :: rest).length : Int) ≤ 0 by
                    simp only [List.length_cons]
                    push_cast
                    omega))]
            · rw [if_neg (not_or.mpr ⟨hr, hc⟩),
                  if_neg (not_or.mpr ⟨by simp,
                    show ¬ wrap64 offset + ((d :: rest).length : Int) ≤ 0 by
                      simp only [List.length_cons]
                      push_cast
                      omega⟩)]
        · have hact : (b.Replace (wrap64 offset) d).redoStack = [] := by
            unfold Buffer.Replace
            rw [if_neg (by push_neg; exact ⟨not_lt.mp hoff, hb⟩)]
          rw [ih]
          have h2 : ¬ ((d :: rest) = [] ∨ wrap64 offset + ((d :: rest).length : Int) ≤ 0) :=
            not_or.mpr ⟨by simp, by simp only [List.length_cons]; push_cast; omega⟩
          rw [if_neg h2, hact, ite_self]

/-! ## C10: SetFilename frame conditions -/

/-- C10: `SetFilename(name)` changes only the path binding and `isNew`,
leaving content, `modified`, the stored digest and both stacks unchanged;
it captures no fingerprint, so on a buffer bound only via `SetFilename`
(never Opened or Saved) the stored digest is still Go's zero value `""`
and `HasChangedOnDisk()` reports true for any readable file (a SHA-256
hex digest is 64 characters, never `""` — the hypothesis `hash d ≠ ""`). -/
theorem C10_setFilename_frame (b : Buffer) (name : String)
    (hash : List Nat → String) (fs : FS) (d : List Nat) :
    (b.SetFilename name).filename = name ∧
    (b.SetFilename name).isNew = false ∧
    (b.SetFilename name).data = b.data ∧
    (b.SetFilename name).modified = b.modified ∧
    (b.SetFilename name).originalHash = b.originalHash ∧
    (b.SetFilename name).undoStack = b.undoStack ∧
    (b.SetFilename name).redoStack = b.redoStack ∧
    (New.SetFilename name).originalHash = "" ∧
    (name ≠ "" → fs name = some d →
      Buffer.HasChangedOnDisk hash (New.SetFilename name) fs =
        Except.ok (decide (¬ (hash d = ""))) ∧
      (hash d ≠ "" →
        Buffer.HasChangedOnDisk hash (New.SetFilename name) fs = Except.ok true)) := by
  refine ⟨rfl, rfl, rfl, rfl, rfl, rfl, rfl, rfl, ?_⟩
  intro hn hfs
  have hmain : Buffer.HasChangedOnDisk hash (New.SetFilename name) fs =
      Except.ok (decide (¬ (hash d = ""))) := by
    unfold Buffer.HasChangedOnDisk
    rw [if_neg (by simp [Buffer.SetFilename, New, hn])]
    show (match fs name with
      | none => Except.error ()
      | some d0 => Except.ok (decide (¬ (hash d0 = "")))) = _
    rw [hfs]
  refine ⟨hmain, fun hne => ?_⟩
  rw [hmain, decide_eq_true (show ¬ (hash d = "") from hne)]

/-- C10 witness: a concrete buffer bound only through `SetFilename`, over a
file system where the bound file reads back one byte. -/
theorem C10_witness :
    Buffer.HasChangedOnDisk (fun _ => "aa") (New.SetFilename "f")
      (fun n => if n = "f" then some [1] else none) = Except.ok true := by
  have h := C10_setFilename_frame New "f" (fun _ => "aa")
      (fun n => if n = "f" then some [1] else none) [1]
  exact ((h.2.2.2.2.2.2.2.2) (by decide) (by simp)).2 (by decide)

/-! ## C7: Save -/

/-- C7: `Save()` returns the unbound-path error exactly when no path is
bound; on any failure the buffer (and the modelled file system) are left
unchanged; on success the file holds exactly the in-memory content, the
digest is recomputed from that content, `modified` is cleared, both
stacks are cleared and `isNew` is false. -/
theorem C7_save_spec (hash : List Nat → String) (b : Buffer) (fs : FS) (writeOk : Bool) :
    ((b.Save hash fs writeOk).1 = some SaveErr.noFilename ↔ b.filename = "") ∧
    (∀ e, (b.Save hash fs writeOk).1 = some e →
      (b.Save hash fs writeOk).2.1 = b ∧ (b.Save hash fs writeOk).2.2 = fs) ∧
    ((b.Save hash fs writeOk).1 = none →
      b.filename ≠ "" ∧
      (b.Save hash fs writeOk).2.2 b.filename = some b.data ∧
      (∀ n, n ≠ b.filename → (b.Save hash fs writeOk).2.2 n = fs n) ∧
      (b.Save hash fs writeOk).2.1.data = b.data ∧
      (b.Save hash fs writeOk).2.1.filename = b.filename ∧
      (b.Save hash fs writeOk).2.1.originalHash = hash b.data ∧
      (b.Save hash fs writeOk).2.1.modified = false ∧
      (b.Save hash fs writeOk).2.1.undoStack = [] ∧
      (b.Save hash fs writeOk).2.1.redoStack = [] ∧
      (b.Save hash fs writeOk).2.1.isNew = false) := by
  unfold Buffer.Save
  by_cases h1 : b.filename = ""
  · rw [if_pos h1]
    refine ⟨by simp [h1], fun e _ => ⟨rfl, rfl⟩, fun h => by simp at h⟩
  · rw [if_neg h1]
    by_cases h2 : writeOk = false
    · rw [if_pos h2]
      refine ⟨by simp [h1], fun e _ => ⟨rfl, rfl⟩, fun h => by simp at h⟩
    · rw [if_neg h2]
      refine ⟨by simp [h1], fun e he => by simp at he, fun _ => ?_⟩
      refine ⟨h1, by simp, fun n hn => by simp [hn], rfl, rfl, rfl, rfl, rfl, rfl, rfl⟩

/-- C7 witness: saving a buffer bound to `"f"` succeeds and writes its
(empty) content there. -/
theorem C7_witness :
    (Buffer.Save (fun _ => "h") (New.SetFilename "f") (fun _ => none) true).1 = none ∧
    (Buffer.Save (fun _ => "h") (New.SetFilename "f") (fun _ => none) true).2.2 "f" =
      some [] := by
  have h := C7_save_spec (fun _ => "h") (New.SetFilename "f") (fun _ => none) true
  have hn : (Buffer.Save (fun _ => "h") (New.SetFilename "f") (fun _ => none) true).1 =
      none := rfl
  exact ⟨hn, (h.2.2 hn).2.1⟩

/-! ## C8: HasChangedOnDisk -/

/-- C8: `HasChangedOnDisk()` returns `(false, nil)` for an unbound or new
buffer; otherwise, when the bound file can be re-read with content `d`,
it returns exactly whether the digest of `d` differs from the stored one,
and an I/O error when the re-read fails; right after a successful `Save`
(or a fresh `Open`) it reports false. -/
theorem C8_hasChanged_spec (hash : List Nat → String) (b : Buffer) (fs : FS) :
    (b.isNew = true ∨ b.filename = "" → b.HasChangedOnDisk hash fs = Except.ok false) ∧
    (b.isNew = false → b.filename ≠ "" → fs b.filename = none →
      b.HasChangedOnDisk hash fs = Except.error ()) ∧
    (∀ d, b.isNew = false → b.filename ≠ "" → fs b.filename = some d →
      b.HasChangedOnDisk hash fs = Except.ok (decide (¬ (hash d = b.originalHash)))) ∧
    (∀ w, (b.Save hash fs w).1 = none →
      Buffer.HasChangedOnDisk hash (b.Save hash fs w).2.1 (b.Save hash fs w).2.2 =
        Except.ok false) ∧
    (∀ fn b2, OpenFile hash fn fs = some b2 →
      b2.HasChangedOnDisk hash fs = Except.ok false) := by
  refine ⟨?_, ?_, ?_, ?_, ?_⟩
  · intro h
    unfold Buffer.HasChangedOnDisk
    rw [if_pos h]
  · intro h1 h2 h3
    simp [Buffer.HasChangedOnDisk, h1, h2, h3]
  · intro d h1 h2 h3
    simp [Buffer.HasChangedOnDisk, h1, h2, h3]
  · intro w hw
    unfold Buffer.Save at hw ⊢
    by_cases h1 : b.filename = ""
    · rw [if_pos h1] at hw
      simp at hw
    · rw [if_neg h1] at hw ⊢
      by_cases h2 : w = false
      · rw [if_pos h2] at hw
        simp at hw
      · rw [if_neg h2]
        simp [Buffer.HasChangedOnDisk, h1]
  · intro fn b2 h
    unfold OpenFile at h
    cases hfs : fs fn with
    | none => rw [hfs] at h; simp at h
    | some d =>
      rw [hfs] at h
      simp only [Option.some_inj] at h
      subst h
      by_cases hfn : fn = ""
      · simp [Buffer.HasChangedOnDisk, hfn]
      · simp [Buffer.HasChangedOnDisk, hfn, hfs]

/-- C8 witness: a bound, non-new buffer over a file whose current content
hashes differently from the stored digest reports true. -/
theorem C8_witness :
    Buffer.HasChangedOnDisk (fun l => if l = [1] then "A" else "B")
      ⟨"f", [1], "A", false, [], [], false⟩
      (fun n => if n = "f" then some [2] else none) = Except.ok true := by
  have h := C8_hasChanged_spec (fun l => if l = [1] then "A" else "B")
      ⟨"f", [1], "A", false, [], [], false⟩
      (fun n => if n = "f" then some [2] else none)
  have h3 := h.2.2.1 [2] rfl (by decide) (by simp)
  rw [h3]
  rfl

/-! ## C4: panic analysis -/

theorem insertPanics_false (b : Buffer) (offset : Int) (data : List Nat) :
    InsertPanics b offset data = false := by
  have hsz : (0 : Int) ≤ b.Size := Int.natCast_nonneg _
  simp only [InsertPanics, insClamp]
  split_ifs with h1 h2 <;> (rw [decide_eq_false_iff_not]; push_neg; omega)

theorem deletePanics_char (b : Buffer) (offset count : Int) :
    DeletePanics b offset count =
      decide (0 ≤ offset ∧ offset < b.Size ∧ 0 < count ∧
        9223372036854775808 ≤ offset + count) := by
  simp only [DeletePanics]
  split_ifs with h1
  · rw [eq_comm, decide_eq_false_iff_not]
    rintro ⟨a, c, e, -⟩
    rcases h1 with h | h | h <;> omega
  · rw [decide_eq_decide]
    push_neg at h1
    omega

theorem replacePanics_false (b : Buffer) (offset : Int) :
    ReplacePanics b offset = false := by
  simp only [ReplacePanics]
  split_ifs with h1
  · rfl
  · rw [decide_eq_false_iff_not]
    push_neg at h1 ⊢
    exact h1

theorem getBytePanics_false (b : Buffer) (offset : Int) :
    GetBytePanics b offset = false := by
  simp only [GetBytePanics]
  split_ifs with h1
  · rfl
  · rw [decide_eq_false_iff_not]
    push_neg at h1 ⊢
    exact h1

theorem countMatchesPanics_false (b : Buffer) (pattern : List Nat) :
    CountMatchesPanics b pattern = false := by
  simp only [CountMatchesPanics]
  split_ifs with h1
  · rfl
  · push_neg at h1
    rw [List.any_eq_false]
    intro i hi
    rw [List.mem_range] at hi
    rw [Bool.not_eq_true, List.any_eq_false]
    intro j hj
    rw [List.mem_range] at hj
    rw [Bool.not_eq_true, decide_eq_false_iff_not]
    have hS : b.Size = (b.data.length : Int) := rfl
    rw [hS] at hi
    omega

theorem replaceBytesPanics_false (b : Buffer) (offset : Int) (data : List Nat) :
    ReplaceBytesPanics b offset data = false := by
  induction data generalizing b offset with
  | nil => rfl
  | cons d rest ih =>
    rw [show ReplaceBytesPanics b offset (d :: rest) =
      (if b.Size ≤ wrap64 offset then
        InsertPanics b b.Size [d] ||
          ReplaceBytesPanics (b.Insert b.Size [d]) (wrap64 offset + 1) rest
      else
        ReplacePanics b (wrap64 offset) ||
          ReplaceBytesPanics (b.Replace (wrap64 offset) d) (wrap64 offset + 1) rest)
      from rfl]
    split_ifs with h
    · rw [insertPanics_false, ih, Bool.or_self]
    · rw [replacePanics_false, ih, Bool.or_self]

theorem getBytesPanics_char (b : Buffer) (offset count : Int) :
    GetBytesPanics b offset count =
      decide (0 ≤ offset ∧ offset < b.Size ∧
        (count < 0 ∨ 9223372036854775808 ≤ offset + count)) := by
  simp only [GetBytesPanics]
  split_ifs with h1
  · rw [eq_comm, decide_eq_false_iff_not]
    rintro ⟨a, c, -⟩
    rcases h1 with h | h <;> omega
  · rw [decide_eq_decide]
    push_neg at h1
    omega

theorem findPanics_char (b : Buffer) (pattern : List Nat) (so : Int) (fwd : Bool) :
    FindPanics b pattern so fwd =
      (fwd && decide (pattern ≠ [] ∧ b.data ≠ [] ∧ so < 0 ∧
        so ≤ b.Size - pattern.length)) := by
  simp only [FindPanics]
  split_ifs with h1 h2
  · have hd : decide (pattern ≠ [] ∧ b.data ≠ [] ∧ so < 0 ∧
        so ≤ b.Size - pattern.length) = false := by
      rw [decide_eq_false_iff_not]
      rintro ⟨hp, hdn, -, -⟩
      rcases h1 with h | h
      · exact hp (List.length_eq_zero.mp h)
      · exact hdn (List.length_eq_zero.mp h)
    rw [hd, Bool.and_false]
  · push_neg at h1
    rw [h2, Bool.true_and, decide_eq_decide]
    constructor
    · rintro ⟨a, c⟩
      exact ⟨fun he => h1.1 (by simp [he]), fun he => h1.2 (by simp [he]), a, c⟩
    · rintro ⟨-, -, a, c⟩
      exact ⟨a, c⟩
  · rw [Bool.not_eq_true] at h2
    rw [h2, Bool.false_and]

/-- C4 counterexample: the claim says every operation terminates without
raising for all integer arguments; but on a 3-byte buffer
`GetBytes(0, -1)` reaches `make([]byte, -1)` (negative slice length),
forward `Find` with `startOffset = -1` enters its loop and evaluates
`b.data[-1]` (index out of range), and `Delete(1, MaxInt64)` /
`GetBytes(1, MaxInt64)` overflow `offset+int64(count)` so the clamp is
skipped and `make` receives a huge length — all of these panic in Go. -/
theorem C4_counterexample :
    GetBytesPanics (New.Insert 0 [1, 2, 3]) 0 (-1) = true ∧
    FindPanics (New.Insert 0 [1, 2, 3]) [7] (-1) true = true ∧
    DeletePanics (New.Insert 0 [1, 2, 3]) 1 9223372036854775807 = true ∧
    GetBytesPanics (New.Insert 0 [1, 2, 3]) 1 9223372036854775807 = true := by
  refine ⟨by decide, rfl, by decide, by decide⟩

/-- C4 amended: all mutation and accessor operations terminate without
raising on all int64 arguments, EXCEPT exactly three cases:
`GetBytes(offset, count)` panics iff `0 ≤ offset < size` and either
`count < 0` (negative `make` length) or `offset + count ≥ 2^63`
(the int64 sum wraps negative, the clamp is skipped, and `make` receives
the unreduced huge `count`); `Delete(offset, count)` panics iff
`0 ≤ offset < size`, `count > 0` and `offset + count ≥ 2^63` (same
wrapped-clamp mechanism); and forward `Find` panics iff buffer and
pattern are non-empty, `startOffset < 0` and
`startOffset ≤ size - len(pattern)` (the loop is entered at a negative
index).  `Insert`, `Replace`, `ReplaceBytes`, `GetByte` and
`CountMatches` never panic. -/
theorem C4_amended_panic_freedom (b : Buffer) (offset count so : Int)
    (data pattern : List Nat) (fwd : Bool) :
    InsertPanics b offset data = false ∧
    ReplacePanics b offset = false ∧
    ReplaceBytesPanics b offset data = false ∧
    GetBytePanics b offset = false ∧
    CountMatchesPanics b pattern = false ∧
    DeletePanics b offset count =
      decide (0 ≤ offset ∧ offset < b.Size ∧ 0 < count ∧
        9223372036854775808 ≤ offset + count) ∧
    GetBytesPanics b offset count =
      decide (0 ≤ offset ∧ offset < b.Size ∧
        (count < 0 ∨ 9223372036854775808 ≤ offset + count)) ∧
    FindPanics b pattern so fwd =
      (fwd && decide (pattern ≠ [] ∧ b.data ≠ [] ∧ so < 0 ∧
        so ≤ b.Size - pattern.length)) :=
  ⟨insertPanics_false b offset data, replacePanics_false b offset,
   replaceBytesPanics_false b offset data, getBytePanics_false b offset,
   countMatchesPanics_false b pattern, deletePanics_char b offset count,
   getBytesPanics_char b offset count, findPanics_char b pattern so fwd⟩

/-! ## Clamping and Insert helpers -/

theorem insClamp_nonneg (b : Buffer) (offset : Int) : 0 ≤ insClamp b offset := by
  have hsz : (0 : Int) ≤ b.Size := Int.natCast_nonneg _
  simp only [insClamp]
  split_ifs <;> omega

theorem insClamp_le (b : Buffer) (offset : Int) : insClamp b offset ≤ b.Size := by
  have hsz : (0 : Int) ≤ b.Size := Int.natCast_nonneg _
  simp only [insClamp]
  split_ifs <;> omega

theorem insClamp_eq_self (b : Buffer) (offset : Int) (h0 : 0 ≤ offset)
    (h1 : offset ≤ b.Size) : insClamp b offset = offset := by
  simp only [insClamp]
  split_ifs <;> omega

theorem insClamp_idem (b : Buffer) (offset : Int) :
    insClamp b (insClamp b offset) = insClamp b offset :=
  insClamp_eq_self b _ (insClamp_nonneg b offset) (insClamp_le b offset)

theorem insert_size (b : Buffer) (offset : Int) (data : List Nat) :
    (b.Insert offset data).Size = b.Size + data.length := by
  simp only [Buffer.Insert, Buffer.Size, List.length_append, List.length_take,
    List.length_drop]
  omega

theorem undo_cons (b : Buffer) (op : Operation) (rest : List Operation)
    (h : b.undoStack = op :: rest) :
    b.Undo = ({ b with
        data := revertOp op b.data
        undoStack := rest
        redoStack := op :: b.redoStack
        modified := decide (0 < rest.length) }, true) := by
  unfold Buffer.Undo
  rw [h]

/-! ## C2: Insert then GetBytes -/

/-- C2: after `Insert(offset, data)` the size has increased by
`len(data)`; for a valid offset in `[0, size]`,
`GetBytes(offset, len(data))` returns exactly `data`; and `Insert` sees
only the clamped offset, so any out-of-range offset behaves as its clamp
into `[0, size]`. -/
theorem C2_insert_getBytes (b : Buffer) (offset : Int) (data : List Nat) :
    (b.Insert offset data).Size = b.Size + data.length ∧
    (0 ≤ offset → offset ≤ b.Size →
      (b.Insert offset data).GetBytes offset data.length = data) ∧
    b.Insert offset data = b.Insert (insClamp b offset) data := by
  refine ⟨insert_size b offset data, ?_, ?_⟩
  · intro h0 hsb
    have hS : b.Size = (b.data.length : Int) := rfl
    have hoc : insClamp b offset = offset := insClamp_eq_self b offset h0 hsb
    have hdata' : (b.Insert offset data).data =
        (b.data.take offset.toNat) ++ data ++ (b.data.drop offset.toNat) := by
      simp [Buffer.Insert, hoc]
    have hsz' : (b.Insert offset data).Size = b.Size + data.length :=
      insert_size b offset data
    have ho : offset.toNat ≤ b.data.length := by omega
    simp only [Buffer.GetBytes]
    by_cases hd : data = []
    · subst hd
      have hS2 : (b.Insert offset []).Size = ((b.Insert offset []).data.length : Int) := rfl
      simp only [List.length_nil, Nat.cast_zero, add_zero]
      split_ifs with hg hg2
      · rfl
      · apply List.drop_eq_nil_of_le
        rw [List.length_take]
        omega
      · apply List.drop_eq_nil_of_le
        rw [List.length_take]
        omega
    · have hlen : 0 < data.length := List.length_pos.mpr hd
      have hne : ¬ (offset < 0 ∨ (b.Insert offset data).Size ≤ offset) := by
        push_neg
        rw [hsz']
        constructor
        · omega
        · omega
      rw [if_neg hne]
      have he : (if (b.Insert offset data).Size < offset + (data.length : Int)
          then (b.Insert offset data).Size else offset + (data.length : Int)) =
          offset + (data.length : Int) := by
        rw [hsz', if_neg (by omega)]
      rw [he]
      have ht : (offset + (data.length : Int)).toNat = offset.toNat + data.length := by
        omega
      rw [ht, hdata']
      rw [List.take_left' (by rw [List.length_append, length_take_of_le ho])]
      exact List.drop_left' (length_take_of_le ho)
  · show b.Insert offset data = b.Insert (insClamp b offset) data
    unfold Buffer.Insert
    rw [insClamp_idem]

/-- C2 witness at a concrete buffer and offset. -/
theorem C2_witness :
    (New.Insert 0 [1, 2]).GetBytes 0 (([1, 2] : List Nat).length) = [1, 2] := by
  have h := C2_insert_getBytes New 0 [1, 2]
  exact h.2.1 (by decide) (by decide)

/-! ## C6: ReplaceBytes granularity -/

theorem appendRunOps_snoc (s : Nat) (ys : List Nat) (y : Nat) :
    appendRunOps s (ys ++ [y]) =
      ⟨OpType.OpInsert, ((s + ys.length : Nat) : Int), [], [y]⟩ :: appendRunOps s ys := by
  induction ys generalizing s with
  | nil => simp [appendRunOps]
  | cons a t ih =>
    rw [List.cons_append,
      show appendRunOps s (a :: (t ++ [y])) =
        appendRunOps (s + 1) (t ++ [y]) ++ [⟨OpType.OpInsert, (s : Int), [], [a]⟩] from rfl,
      ih,
      show appendRunOps s (a :: t) =
        appendRunOps (s + 1) t ++ [⟨OpType.OpInsert, (s : Int), [], [a]⟩] from rfl]
    rw [List.cons_append]
    have harith : (s + 1) + t.length = s + (a :: t).length := by
      rw [List.length_cons]
      omega
    rw [harith]

theorem replaceBytes_append (b : Buffer) (offset : Int) (data : List Nat)
    (h : b.Size ≤ offset) (hub : offset + data.length ≤ 9223372036854775808) :
    (b.ReplaceBytes offset data).data = b.data ++ data ∧
    (b.ReplaceBytes offset data).undoStack =
      appendRunOps b.data.length data ++ b.undoStack := by
  induction data generalizing b offset with
  | nil => simp [Buffer.ReplaceBytes, appendRunOps]
  | cons d rest ih =>
    have hsz : (0 : Int) ≤ b.Size := Int.natCast_nonneg _
    have hub' : offset + (rest.length : Int) + 1 ≤ 9223372036854775808 := by
      simp only [List.length_cons] at hub
      push_cast at hub
      omega
    have hwoff : wrap64 offset = offset := wrap64_eq_self (by omega) (by omega)
    have hclamp : insClamp b b.Size = b.Size :=
      insClamp_eq_self b b.Size (Int.natCast_nonneg _) le_rfl
    have htn : (b.Size).toNat = b.data.length := by
      have : b.Size = (b.data.length : Int) := rfl
      omega
    have h1 : (b.Insert b.Size [d]).data = b.data ++ [d] := by
      simp [Buffer.Insert, hclamp, htn]
    have h2 : (b.Insert b.Size [d]).undoStack =
        ⟨OpType.OpInsert, b.Size, [], [d]⟩ :: b.undoStack := by
      simp [Buffer.Insert, hclamp]
    have h3 : (b.Insert b.Size [d]).Size ≤ offset + 1 := by
      rw [insert_size]
      simp only [List.length_cons, List.length_nil]
      push_cast
      omega
    have h4 : (offset + 1) + (rest.length : Int) ≤ 9223372036854775808 := by omega
    obtain ⟨ihd, ihs⟩ := ih (b.Insert b.Size [d]) (offset + 1) h3 h4
    rw [show b.ReplaceBytes offset (d :: rest) =
      (if b.Size ≤ wrap64 offset then b.Insert b.Size [d]
       else b.Replace (wrap64 offset) d).ReplaceBytes (wrap64 offset + 1) rest from rfl,
      hwoff, if_pos h]
    constructor
    · rw [ihd, h1, List.append_assoc, List.singleton_append]
    · rw [ihs, h2, show (b.Insert b.Size [d]).data.length = b.data.length + 1 by
        rw [h1, List.length_append, List.length_cons, List.length_nil]]
      rw [List.append_cons (appendRunOps (b.data.length + 1) rest)]
      rfl

/-- C6 counterexample: the claim says every byte at a position at or past
the current size is appended via a single-byte Insert; but at
`offset = MaxInt64` the second position `offset + 1` wraps to `MinInt64`
in int64 arithmetic, `Replace`'s negative-offset guard makes that step a
no-op, and only the first byte is appended — not both. -/
theorem C6_counterexample :
    ((New.Insert 0 [1, 2]).ReplaceBytes 9223372036854775807 [9, 8]).data = [1, 2, 9] ∧
    ((New.Insert 0 [1, 2]).ReplaceBytes 9223372036854775807 [9, 8]).data ≠
      [1, 2] ++ [9, 8] := by
  refine ⟨by decide, by decide⟩

/-- C6 amended: `ReplaceBytes(offset, data)` works byte-by-byte, left to
right, with positions computed in wrapping int64 arithmetic, replacing
while the position is strictly below the current size (a no-op when it
is negative) and switching to a single-byte `Insert` at the current end
otherwise; hence a run past end-of-buffer whose positions stay within
int64 range (`offset + len(data) ≤ 2^63`) appends the bytes and pushes
one single-byte Insert Operation per byte onto the undo stack (not one
aggregate Insert), and a single `Undo()` removes exactly the last byte. -/
theorem C6_replaceBytes_granularity (b : Buffer) (offset : Int) (data : List Nat)
    (d : Nat) (rest : List Nat) :
    (b.ReplaceBytes offset (d :: rest) =
      (if b.Size ≤ wrap64 offset then b.Insert b.Size [d]
       else b.Replace (wrap64 offset) d).ReplaceBytes (wrap64 offset + 1) rest) ∧
    (b.Size ≤ offset → offset + data.length ≤ 9223372036854775808 →
      (b.ReplaceBytes offset data).data = b.data ++ data ∧
      (b.ReplaceBytes offset data).undoStack =
        appendRunOps b.data.length data ++ b.undoStack) ∧
    (b.Size ≤ offset → offset + data.length ≤ 9223372036854775808 → data ≠ [] →
      ((b.ReplaceBytes offset data).Undo).2 = true ∧
      ((b.ReplaceBytes offset data).Undo).1.data = b.data ++ data.dropLast) := by
  refine ⟨rfl, fun h hub => replaceBytes_append b offset data h hub,
    fun h hub hne => ?_⟩
  obtain ⟨ys, y, rfl⟩ := (List.eq_nil_or_concat data).resolve_left hne
  simp only [List.concat_eq_append] at hne hub ⊢
  obtain ⟨hd, hs⟩ := replaceBytes_append b offset (ys ++ [y]) h hub
  rw [appendRunOps_snoc] at hs
  have hstack : (b.ReplaceBytes offset (ys ++ [y])).undoStack =
      ⟨OpType.OpInsert, ((b.data.length + ys.length : Nat) : Int), [], [y]⟩ ::
        (appendRunOps b.data.length ys ++ b.undoStack) := by
    rw [hs]
    rfl
  simp only [undo_cons _ _ _ hstack]
  refine ⟨trivial, ?_⟩
  rw [hd]
  have hn : ((((b.data.length + ys.length : Nat)) : Int)).toNat =
      b.data.length + ys.length := by omega
  simp only [revertOp, hn, List.length_cons, List.length_nil]
  rw [List.dropLast_concat, ← List.append_assoc]
  rw [List.take_left' (by rw [List.length_append])]
  rw [List.drop_eq_nil_of_le (by
    rw [List.length_append, List.length_append, List.length_cons, List.length_nil])]
  rw [List.append_nil]

/-- C6 witness: pasting `[9, 8]` at the end of a 2-byte buffer (positions
2 and 3, far from the int64 boundary). -/
theorem C6_witness :
    ((New.Insert 0 [1, 2]).ReplaceBytes 2 [9, 8]).data = [1, 2] ++ [9, 8] ∧
    ((New.Insert 0 [1, 2]).ReplaceBytes 2 [9, 8]).undoStack =
      appendRunOps 2 [9, 8] ++ (New.Insert 0 [1, 2]).undoStack ∧
    (((New.Insert 0 [1, 2]).ReplaceBytes 2 [9, 8]).Undo).1.data = [1, 2, 9] := by
  have h := C6_replaceBytes_granularity (New.Insert 0 [1, 2]) 2 [9, 8] 9 [8]
  obtain ⟨hd, hs⟩ := h.2.1 (by decide) (by decide)
  refine ⟨hd, hs, ?_⟩
  rw [(h.2.2 (by decide) (by decide) (by decide)).2]
  rfl

/-! ## C5: Find -/

theorem scanFwd_spec (data pat : List Nat) (n : Nat) :
    ∀ i : Int, 0 ≤ i →
    (scanFwd data pat i n = -1 ∧
      ∀ j : Int, i ≤ j → j < i + n → matchAt data pat j.toNat = false) ∨
    (i ≤ scanFwd data pat i n ∧ scanFwd data pat i n < i + n ∧
      matchAt data pat (scanFwd data pat i n).toNat = true ∧
      ∀ j : Int, i ≤ j → j < scanFwd data pat i n → matchAt data pat j.toNat = false) := by
  induction n with
  | zero =>
    intro i hi
    left
    refine ⟨rfl, fun j hj1 hj2 => ?_⟩
    exfalso
    simp only [Nat.cast_zero, add_zero] at hj2
    omega
  | succ m ih =>
    intro i hi
    rw [show scanFwd data pat i (m + 1) =
      (if matchAt data pat i.toNat then i else scanFwd data pat (i + 1) m) from rfl]
    by_cases hm : matchAt data pat i.toNat = true
    · rw [if_pos hm]
      right
      refine ⟨le_refl i, by push_cast; omega, hm, fun j hj1 hj2 => ?_⟩
      exfalso
      omega
    · rw [if_neg hm]
      rw [Bool.not_eq_true] at hm
      rcases ih (i + 1) (by omega) with ⟨h1, h2⟩ | ⟨h1, h2, h3, h4⟩
      · left
        refine ⟨h1, fun j hj1 hj2 => ?_⟩
        by_cases hji : j = i
        · subst hji
          exact hm
        · exact h2 j (by omega) (by push_cast at hj2 ⊢; omega)
      · right
        refine ⟨by omega, by push_cast at h2 ⊢; omega, h3, fun j hj1 hj2 => ?_⟩
        by_cases hji : j = i
        · subst hji
          exact hm
        · exact h4 j (by omega) hj2

theorem scanBack_spec (data pat : List Nat) (s : Nat) :
    (scanBack data pat s = -1 ∧ ∀ j : Nat, j ≤ s → matchAt data pat j = false) ∨
    (∃ r : Nat, scanBack data pat s = r ∧ r ≤ s ∧ matchAt data pat r = true ∧
      ∀ j : Nat, r < j → j ≤ s → matchAt data pat j = false) := by
  induction s with
  | zero =>
    by_cases hm : matchAt data pat 0 = true
    · right
      refine ⟨0, ?_, le_refl 0, hm, fun j hj1 hj2 => by exfalso; omega⟩
      rw [show scanBack data pat 0 = (if matchAt data pat 0 then (0 : Int) else -1) from rfl,
        if_pos hm]
      rfl
    · left
      rw [Bool.not_eq_true] at hm
      refine ⟨?_, fun j hj => ?_⟩
      · rw [show scanBack data pat 0 = (if matchAt data pat 0 then (0 : Int) else -1) from rfl,
          if_neg (by rw [hm]; exact Bool.false_ne_true)]
      · have hj0 : j = 0 := Nat.le_zero.mp hj
        rw [hj0]
        exact hm
  | succ m ih =>
    rw [show scanBack data pat (m + 1) =
      (if matchAt data pat (m + 1) then ((m : Int) + 1) else scanBack data pat m) from rfl]
    by_cases hm : matchAt data pat (m + 1) = true
    · right
      refine ⟨m + 1, ?_, le_refl _, hm, fun j hj1 hj2 => by exfalso; omega⟩
      rw [if_pos hm]
      push_cast
      ring
    · rw [Bool.not_eq_true] at hm
      rw [if_neg (by rw [hm]; exact Bool.false_ne_true)]
      rcases ih with ⟨h1, h2⟩ | ⟨r, h1, h2, h3, h4⟩
      · left
        refine ⟨h1, fun j hj => ?_⟩
        by_cases hj1 : j = m + 1
        · subst hj1
          exact hm
        · exact h2 j (by omega)
      · right
        refine ⟨r, h1, by omega, h3, fun j hj1 hj2 => ?_⟩
        by_cases hjm : j = m + 1
        · subst hjm
          exact hm
        · exact h4 j hj1 (by omega)

/-- C5: `Find` returns -1 on an empty pattern or empty content; forward it
returns the lowest matching index `i ≥ startOffset` with
`i + len(pattern) ≤ size`, or -1 when none matches there; backward it
returns the highest matching index `i` with `0 ≤ i ≤ startOffset - 1` and
`i + len(pattern) ≤ size` (i.e. `i ≤ min(startOffset-1, size-len(pattern))`),
or -1. -/
theorem C5_find_spec (b : Buffer) (pat : List Nat) (so : Int) (fwd : Bool)
    (hso : 0 ≤ so) :
    ((pat = [] ∨ b.data = []) → b.Find pat so fwd = -1) ∧
    (pat ≠ [] → b.data ≠ [] →
      ((b.Find pat so true = -1 ∧
          ∀ i : Int, so ≤ i → i + pat.length ≤ b.Size →
            matchAt b.data pat i.toNat = false) ∨
        (so ≤ b.Find pat so true ∧ b.Find pat so true + pat.length ≤ b.Size ∧
          matchAt b.data pat (b.Find pat so true).toNat = true ∧
          ∀ i : Int, so ≤ i → i < b.Find pat so true →
            matchAt b.data pat i.toNat = false))) ∧
    (pat ≠ [] → b.data ≠ [] →
      ((b.Find pat so false = -1 ∧
          ∀ i : Int, 0 ≤ i → i ≤ so - 1 → i + pat.length ≤ b.Size →
            matchAt b.data pat i.toNat = false) ∨
        (0 ≤ b.Find pat so false ∧ b.Find pat so false ≤ so - 1 ∧
          b.Find pat so false + pat.length ≤ b.Size ∧
          matchAt b.data pat (b.Find pat so false).toNat = true ∧
          ∀ i : Int, b.Find pat so false < i → i ≤ so - 1 → i + pat.length ≤ b.Size →
            matchAt b.data pat i.toNat = false))) := by
  have hS : b.Size = (b.data.length : Int) := rfl
  refine ⟨?_, ?_, ?_⟩
  · rintro (h | h) <;> simp [Buffer.Find, h]
  · intro hp hd
    have hguard : ¬ (pat.length = 0 ∨ b.data.length = 0) := by
      push_neg
      exact ⟨fun h => hp (List.length_eq_zero.mp h), fun h => hd (List.length_eq_zero.mp h)⟩
    have hF : b.Find pat so true =
        scanFwd b.data pat so ((b.Size - pat.length + 1 - so).toNat) := by
      unfold Buffer.Find
      rw [if_neg hguard, if_pos rfl]
    rcases scanFwd_spec b.data pat ((b.Size - pat.length + 1 - so).toNat) so hso with
      ⟨h1, h2⟩ | ⟨h1, h2, h3, h4⟩
    · left
      rw [hF]
      refine ⟨h1, fun i hi1 hi2 => ?_⟩
      exact h2 i hi1 (by omega)
    · right
      rw [hF]
      exact ⟨h1, by omega, h3, fun i hi1 hi2 => h4 i hi1 hi2⟩
  · intro hp hd
    have hguard : ¬ (pat.length = 0 ∨ b.data.length = 0) := by
      push_neg
      exact ⟨fun h => hp (List.length_eq_zero.mp h), fun h => hd (List.length_eq_zero.mp h)⟩
    have hF : b.Find pat so false =
        (if min (so - 1) (b.Size - pat.length) < 0 then -1
         else scanBack b.data pat (min (so - 1) (b.Size - pat.length)).toNat) := by
      simp only [Buffer.Find]
      rw [if_neg hguard, if_neg (by simp)]
    by_cases hs0 : min (so - 1) (b.Size - (pat.length : Int)) < 0
    · left
      rw [hF, if_pos hs0]
      refine ⟨rfl, fun i hi0 hi1 hi2 => ?_⟩
      exfalso
      omega
    · rw [hF, if_neg hs0]
      rcases scanBack_spec b.data pat (min (so - 1) (b.Size - (pat.length : Int))).toNat with
        ⟨h1, h2⟩ | ⟨r, h1, h2, h3, h4⟩
      · left
        refine ⟨h1, fun i hi0 hi1 hi2 => ?_⟩
        exact h2 i.toNat (by omega)
      · right
        refine ⟨?_, ?_, ?_, ?_, ?_⟩
        · rw [h1]
          exact Int.natCast_nonneg r
        · rw [h1]
          omega
        · rw [h1]
          omega
        · rw [h1, Int.toNat_natCast]
          exact h3
        · intro i hi1 hi2 hi3
          rw [h1] at hi1
          exact h4 i.toNat (by omega) (by omega)

/-- C5 witness: forward search over a 2-byte buffer finds the pattern at
index 0. -/
theorem C5_witness : (New.Insert 0 [87, 66]).Find [87] 0 true = 0 := by
  have h := C5_find_spec (New.Insert 0 [87, 66]) [87] 0 true (by decide)
  rcases h.2.1 (by decide) (by decide) with ⟨h1, h2⟩ | ⟨h1, h2, h3, h4⟩
  · exfalso
    have hm := h2 0 (by decide) (by decide)
    rw [show matchAt (New.Insert 0 [87, 66]).data [87] (0 : Int).toNat = true from rfl] at hm
    simp at hm
  · by_contra hne
    have hF : 0 < (New.Insert 0 [87, 66]).Find [87] 0 true := by omega
    have hm := h4 0 (by decide) hF
    rw [show matchAt (New.Insert 0 [87, 66]).data [87] (0 : Int).toNat = true from rfl] at hm
    simp at hm

/-! ## C1: Undo reverts exactly -/

theorem redo_cons (b : Buffer) (op : Operation) (rest : List Operation)
    (h : b.redoStack = op :: rest) :
    b.Redo = ({ b with
        data := applyOp op b.data
        redoStack := rest
        undoStack := op :: b.undoStack
        modified := true }, true) := by
  unfold Buffer.Redo
  rw [h]

theorem delete_noop (b : Buffer) (offset count : Int)
    (hg : offset < 0 ∨ b.Size ≤ offset ∨ count ≤ 0) :
    b.Delete offset count = b := by
  unfold Buffer.Delete
  rw [if_pos hg]

theorem delete_active (b : Buffer) (offset count : Int)
    (hg : ¬ (offset < 0 ∨ b.Size ≤ offset ∨ count ≤ 0)) :
    b.Delete offset count = { b with
        undoStack := ⟨OpType.OpDelete, offset,
          (b.data.drop offset.toNat).take
            (if b.Size < offset + count then b.Size - offset else count).toNat, []⟩ ::
          b.undoStack
        redoStack := []
        data := (b.data.take offset.toNat) ++
          (b.data.drop (offset.toNat +
            (if b.Size < offset + count then b.Size - offset else count).toNat))
        modified := true } := by
  unfold Buffer.Delete
  rw [if_neg hg]

theorem replace_noop (b : Buffer) (offset : Int) (nb : Nat)
    (hg : offset < 0 ∨ b.Size ≤ offset) :
    b.Replace offset nb = b := by
  unfold Buffer.Replace
  rw [if_pos hg]

theorem replace_active (b : Buffer) (offset : Int) (nb : Nat)
    (hg : ¬ (offset < 0 ∨ b.Size ≤ offset)) :
    b.Replace offset nb = { b with
        undoStack := ⟨OpType.OpReplace, offset, [b.data.getD offset.toNat 0], [nb]⟩ ::
          b.undoStack
        redoStack := []
        data := b.data.set offset.toNat nb
        modified := true } := by
  unfold Buffer.Replace
  rw [if_neg hg]

theorem wfUndo_invert (op : Operation) (d : List Nat) (h : WfUndo op d) :
    applyOp op (revertOp op d) = d ∧ WfRedo op (revertOp op d) := by
  obtain ⟨ty, off, od, nd⟩ := op
  cases ty with
  | OpInsert =>
    simp only [WfUndo] at h
    obtain ⟨h0, hlen, hseg⟩ := h
    have ho : off.toNat ≤ d.length := by omega
    constructor
    · simp only [applyOp, revertOp]
      rw [List.take_left' (length_take_of_le ho), List.drop_left' (length_take_of_le ho)]
      have hsp := splice_self d off.toNat nd.length
      rw [hseg] at hsp
      exact hsp
    · refine ⟨h0, ?_⟩
      simp only [revertOp, List.length_append, List.length_take, List.length_drop]
      omega
  | OpDelete =>
    simp only [WfUndo] at h
    obtain ⟨h0, hle⟩ := h
    constructor
    · simp only [applyOp, revertOp]
      rw [take_splice d od off.toNat hle, drop_splice_end d od off.toNat hle]
      exact List.take_append_drop _ _
    · refine ⟨h0, ?_, ?_⟩
      · simp only [revertOp, List.length_append, List.length_take, List.length_drop]
        omega
      · simp only [revertOp]
        rw [drop_splice_mid d od off.toNat hle]
        exact List.take_left od _
  | OpReplace =>
    simp only [WfUndo] at h
    obtain ⟨h0, hlt, hod, hnd, hval⟩ := h
    constructor
    · simp only [applyOp, revertOp]
      rw [List.set_set, ← hval]
      exact set_getD_self d off.toNat hlt
    · refine ⟨h0, ?_, hod, hnd, ?_⟩
      · simp only [revertOp, List.length_set]
        exact hlt
      · simp only [revertOp]
        exact getD_set_self d off.toNat _ hlt

theorem wfRedo_invert (op : Operation) (d : List Nat) (h : WfRedo op d) :
    revertOp op (applyOp op d) = d ∧ WfUndo op (applyOp op d) := by
  obtain ⟨ty, off, od, nd⟩ := op
  cases ty with
  | OpInsert =>
    simp only [WfRedo] at h
    obtain ⟨h0, hle⟩ := h
    constructor
    · simp only [applyOp, revertOp]
      rw [take_splice d nd off.toNat hle, drop_splice_end d nd off.toNat hle]
      exact List.take_append_drop _ _
    · refine ⟨h0, ?_, ?_⟩
      · simp only [applyOp, List.length_append, List.length_take, List.length_drop]
        omega
      · simp only [applyOp]
        rw [drop_splice_mid d nd off.toNat hle]
        exact List.take_left nd _
  | OpDelete =>
    simp only [WfRedo] at h
    obtain ⟨h0, hlen, hseg⟩ := h
    have ho : off.toNat ≤ d.length := by omega
    constructor
    · simp only [applyOp, revertOp]
      rw [List.take_left' (length_take_of_le ho), List.drop_left' (length_take_of_le ho)]
      have hsp := splice_self d off.toNat od.length
      rw [hseg] at hsp
      exact hsp
    · refine ⟨h0, ?_⟩
      simp only [applyOp, List.length_append, List.length_take, List.length_drop]
      omega
  | OpReplace =>
    simp only [WfRedo] at h
    obtain ⟨h0, hlt, hod, hnd, hval⟩ := h
    constructor
    · simp only [applyOp, revertOp]
      rw [List.set_set, ← hval]
      exact set_getD_self d off.toNat hlt
    · refine ⟨h0, ?_, hod, hnd, ?_⟩
      · simp only [applyOp, List.length_set]
        exact hlt
      · simp only [applyOp]
        exact getD_set_self d off.toNat _ hlt

theorem stackOk_cons {op : Operation} {u : List Operation} {hs : List (List Nat)}
    {d : List Nat} (h : StackOk (op :: u) hs d) :
    ∃ h0 hs', hs = h0 :: hs' ∧ revertOp op d = h0 ∧ WfUndo op d ∧ StackOk u hs' h0 := by
  cases hs with
  | nil => exact False.elim h
  | cons h0 hs' => exact ⟨h0, hs', rfl, h.1, h.2.1, h.2.2⟩

/-- States reached through `ReplaceBytes` are covered by `Reach`: the
method is literally a sequence of `Insert`/`Replace` calls. -/
theorem Reach.replaceBytes {b : Buffer} {hs : List (List Nat)} (offset : Int)
    (data : List Nat) (h : Reach b hs) :
    ∃ hs', Reach (b.ReplaceBytes offset data) hs' := by
  induction data generalizing b hs offset with
  | nil => exact ⟨hs, h⟩
  | cons d rest ih =>
    rw [show b.ReplaceBytes offset (d :: rest) =
      (if b.Size ≤ wrap64 offset then b.Insert b.Size [d]
       else b.Replace (wrap64 offset) d).ReplaceBytes (wrap64 offset + 1) rest from rfl]
    by_cases hb : b.Size ≤ wrap64 offset
    · rw [if_pos hb]
      exact ih (wrap64 offset + 1) (Reach.insert b.Size [d] h)
    · rw [if_neg hb]
      exact ih (wrap64 offset + 1) (Reach.replace (wrap64 offset) d h)

/-- Every reachable buffer state satisfies the operation-log invariant:
the undo stack reverts step by step through exactly the recorded prior
contents, and the redo stack replays forward. -/
theorem reach_inv {b : Buffer} {hs : List (List Nat)} (h : Reach b hs) : Inv b hs := by
  induction h with
  | init fn d oh m n => exact ⟨trivial, trivial⟩
  | @insert b hs offset data hr ih =>
    obtain ⟨hu, hre⟩ := ih
    have hSS : b.Size = (b.data.length : Int) := rfl
    have h1 := insClamp_le b offset
    have h2 := insClamp_nonneg b offset
    have ho : (insClamp b offset).toNat ≤ b.data.length := by omega
    have hid : (b.Insert offset data).data =
        (b.data.take (insClamp b offset).toNat) ++ data ++
          (b.data.drop (insClamp b offset).toNat) := rfl
    refine ⟨⟨?_, ⟨h2, ?_, ?_⟩, hu⟩, trivial⟩
    · simp only [revertOp]
      rw [hid, take_splice b.data data _ ho, drop_splice_end b.data data _ ho]
      exact List.take_append_drop _ _
    · rw [hid]
      simp only [List.length_append, List.length_take, List.length_drop]
      omega
    · rw [hid, drop_splice_mid b.data data _ ho]
      exact List.take_left data _
  | @delete b hs offset count hr ih =>
    obtain ⟨hu, hre⟩ := ih
    by_cases hg : offset < 0 ∨ b.Size ≤ offset ∨ count ≤ 0
    · rw [delete_noop b offset count hg, if_pos hg]
      exact ⟨hu, hre⟩
    · rw [delete_active b offset count hg, if_neg hg]
      have hSS : b.Size = (b.data.length : Int) := rfl
      push_neg at hg
      obtain ⟨hg1, hg2, hg3⟩ := hg
      have hc1 : 0 < (if b.Size < offset + count then b.Size - offset else count) := by
        split_ifs <;> omega
      have hc2 : offset + (if b.Size < offset + count then b.Size - offset else count) ≤
          b.Size := by
        split_ifs <;> omega
      have ho : offset.toNat ≤ b.data.length := by omega
      refine ⟨⟨?_, ⟨show (0 : Int) ≤ offset by omega, ?_⟩, hu⟩, trivial⟩
      · simp only [revertOp]
        rw [List.take_left' (length_take_of_le ho), List.drop_left' (length_take_of_le ho)]
        exact splice_self b.data offset.toNat _
      · simp only [List.length_append, List.length_take, List.length_drop]
        omega
  | @replace b hs offset nb hr ih =>
    obtain ⟨hu, hre⟩ := ih
    by_cases hg : offset < 0 ∨ b.Size ≤ offset
    · rw [replace_noop b offset nb hg, if_pos hg]
      exact ⟨hu, hre⟩
    · rw [replace_active b offset nb hg, if_neg hg]
      have hSS : b.Size = (b.data.length : Int) := rfl
      push_neg at hg
      obtain ⟨hg1, hg2⟩ := hg
      have hlt : offset.toNat < b.data.length := by omega
      refine ⟨⟨?_, ⟨hg1, ?_, rfl, rfl, ?_⟩, hu⟩, trivial⟩
      · simp only [revertOp, List.headD_cons]
        rw [List.set_set]
        exact set_getD_self b.data offset.toNat hlt
      · simp only [List.length_set]
        exact hlt
      · simp only [List.headD_cons]
        exact getD_set_self b.data offset.toNat nb hlt
  | @undo b hs hr ih =>
    obtain ⟨hu, hre⟩ := ih
    cases hstack : b.undoStack with
    | nil =>
      have hun : b.Undo = (b, false) := by
        unfold Buffer.Undo
        rw [hstack]
      rw [hun]
      rw [hstack] at hu
      cases hhs : hs with
      | nil => exact ⟨by rw [hstack]; trivial, hre⟩
      | cons x xs =>
        rw [hhs] at hu
        exact False.elim hu
    | cons op rest =>
      rw [undo_cons b op rest hstack]
      rw [hstack] at hu
      obtain ⟨h0, hs', heq, hrev, hwf, hsok⟩ := stackOk_cons hu
      obtain ⟨happ, hwfr⟩ := wfUndo_invert op b.data hwf
      rw [heq]
      refine ⟨?_, ?_, ?_⟩
      · show StackOk rest hs' (revertOp op b.data)
        rw [hrev]
        exact hsok
      · exact hwfr
      · show RedoOk b.redoStack (applyOp op (revertOp op b.data))
        rw [happ]
        exact hre
  | @redo b hs hr ih =>
    obtain ⟨hu, hre⟩ := ih
    cases hstack : b.redoStack with
    | nil =>
      have hrd : b.Redo = (b, false) := by
        unfold Buffer.Redo
        rw [hstack]
      rw [hrd, if_pos rfl]
      exact ⟨hu, hre⟩
    | cons op rest =>
      rw [redo_cons b op rest hstack, if_neg (show ¬ (op :: rest = []) by simp)]
      rw [hstack] at hre
      obtain ⟨hwfr, hrest⟩ := hre
      obtain ⟨hrev', hwfu'⟩ := wfRedo_invert op b.data hwfr
      exact ⟨⟨hrev', hwfu', hu⟩, hrest⟩
  | @save b hs hash fs w hr hok ih =>
    by_cases h1 : b.filename = ""
    · exfalso
      unfold Buffer.Save at hok
      rw [if_pos h1] at hok
      simp at hok
    · by_cases h2 : w = false
      · exfalso
        unfold Buffer.Save at hok
        rw [if_neg h1, if_pos h2] at hok
        simp at hok
      · have hbs : (b.Save hash fs w).2.1 = { b with
            originalHash := hash b.data
            modified := false
            undoStack := []
            redoStack := []
            isNew := false } := by
          unfold Buffer.Save
          rw [if_neg h1, if_neg h2]
        rw [hbs]
        exact ⟨trivial, trivial⟩
  | @setFilename b hs name hr ih => exact ih

/-- C1: for every reachable state with a non-empty undo stack, `Undo()`
pops the top Operation, reverse-applies it (`revertOp`: Insert removes
`newData` at `offset`, Delete reinserts `oldData` at `offset`, Replace
restores the `oldData` byte), pushes the popped Operation unchanged onto
the redo stack and returns true; the resulting content is exactly the
ghost-recorded content that held immediately before that Operation was
applied (equivalently, forward-applying the Operation to it gives back
the current content). -/
theorem C1_undo_reverts {b : Buffer} {hs : List (List Nat)} (hr : Reach b hs)
    (op : Operation) (u : List Operation) (h : b.undoStack = op :: u) :
    (b.Undo).2 = true ∧
    (b.Undo).1.data = revertOp op b.data ∧
    (b.Undo).1.undoStack = u ∧
    (b.Undo).1.redoStack = op :: b.redoStack ∧
    hs = revertOp op b.data :: hs.tail ∧
    applyOp op ((b.Undo).1.data) = b.data := by
  obtain ⟨hu, hre⟩ := reach_inv hr
  rw [h] at hu
  obtain ⟨h0, hs', heq, hrev, hwf, hsok⟩ := stackOk_cons hu
  have happ := (wfUndo_invert op b.data hwf).1
  rw [undo_cons b op u h]
  refine ⟨rfl, rfl, rfl, rfl, ?_, happ⟩
  rw [heq, hrev]
  rfl

/-- C1 witness: a single Insert from the empty buffer, then Undo. -/
theorem C1_witness :
    ((New.Insert 0 [65]).Undo).2 = true ∧
    ((New.Insert 0 [65]).Undo).1.data = [] := by
  have hr : Reach (New.Insert 0 [65]) [[]] :=
    Reach.insert 0 [65] (Reach.init "" [] "" false true)
  have h := C1_undo_reverts hr ⟨OpType.OpInsert, 0, [], [65]⟩ [] rfl
  refine ⟨h.1, ?_⟩
  rw [h.2.1]
  rfl

end Unhexed
